import Mathlib

/-!
Verification of the Smart-Tender-Search scheduling core.

Python strings are embedded as lists of characters (`PyStr`), and the
string primitives used by the source (`in`, `str.split`, `int`, `str`,
`str.lower`) are modelled as executable Lean functions on `PyStr`.
Fallible Python code is embedded with `Option`: a `none` result stands for
an uncaught exception.
-/

set_option maxHeartbeats 1000000

abbrev PyStr := List Char

/-- Python substring test `pat in s`. -/
def strContains : PyStr → PyStr → Bool
  | [], pat => pat.isEmpty
  | c :: t, pat => pat.isPrefixOf (c :: t) || strContains t pat

/-- Locate the first occurrence of `sep` in a string, returning the parts
before and after it. -/
def findSplit (sep : PyStr) : PyStr → Option (PyStr × PyStr)
  | [] => if sep.isEmpty then some ([], []) else none
  | c :: rest =>
    if sep.isPrefixOf (c :: rest) then some ([], (c :: rest).drop sep.length)
    else
      match findSplit sep rest with
      | some (pre, post) => some (c :: pre, post)
      | none => none

/-- Fueled worker for `pySplit`; the fuel keeps the recursion structural so
that concrete inputs evaluate inside the kernel. -/
def pySplitAux (sep : PyStr) : Nat → PyStr → List PyStr
  | 0, s => [s]
  | fuel + 1, s =>
    match findSplit sep s with
    | none => [s]
    | some (pre, post) => pre :: pySplitAux sep fuel post

/-- Python `s.split(sep)` for a non-empty separator. -/
def pySplit (sep s : PyStr) : List PyStr := pySplitAux sep (s.length + 1) s

/-- Value of a decimal digit string, most significant digit first. -/
def digitsToNat (l : PyStr) : Nat := l.foldl (fun a c => 10 * a + (c.toNat - 48)) 0

/-- Strip leading and trailing whitespace, as Python `int` does before
parsing. -/
def stripWS (s : PyStr) : PyStr :=
  ((s.dropWhile Char.isWhitespace).reverse.dropWhile Char.isWhitespace).reverse

/-- Python `int(s)`: `none` models a raised `ValueError`. -/
def pyInt (s : PyStr) : Option Int :=
  match stripWS s with
  | [] => none
  | c :: ds =>
    if c = '-' then
      if ds ≠ [] ∧ ds.all Char.isDigit then some (-(digitsToNat ds : Int)) else none
    else if c = '+' then
      if ds ≠ [] ∧ ds.all Char.isDigit then some ((digitsToNat ds : Int)) else none
    else if (c :: ds).all Char.isDigit then some ((digitsToNat (c :: ds) : Int)) else none

/-- Decimal digits of a natural number, fueled to stay structural. -/
def natToDigitsAux : Nat → Nat → List Char
  | 0, _ => []
  | fuel + 1, n =>
    if n < 10 then [Char.ofNat (48 + n)]
    else natToDigitsAux fuel (n / 10) ++ [Char.ofNat (48 + n % 10)]

/-- Python `str(n)` for a natural number. -/
def natToDigits (n : Nat) : PyStr := natToDigitsAux (n + 1) n

/-- Python `s.lower()` (ASCII range, which covers the rule names in play). -/
def pyLower (s : PyStr) : PyStr := s.map Char.toLower

/-- An evaluation instant: the weekday (0 = Monday), hour and minute that
Python `datetime` exposes to the scheduler. -/
structure Instant where
  weekday : Nat
  hour : Nat
  minute : Nat
deriving DecidableEq

namespace Sched

/-- Czech marker for a once-daily schedule, from `centralSchedulerLambda.py`. -/
def jednouDenne : PyStr := "Jednou denně".toList

/-- The separator between the day name and the time in a schedule entry. -/
def sepV : PyStr := " v ".toList

/-- Mapping of Czech day names onto Python `weekday()` outputs, from
`centralSchedulerLambda.py`. -/
def day_mapping (d : PyStr) : Option Nat :=
  if d = "Pondělí".toList then some 0
  else if d = "Úterý".toList then some 1
  else if d = "Středa".toList then some 2
  else if d = "Čtvrtek".toList then some 3
  else if d = "Pátek".toList then some 4
  else if d = "Sobota".toList then some 5
  else if d = "Neděle".toList then some 6
  else none

/-- Embedding of `is_scheduled_time` from `centralSchedulerLambda.py`.
`none` models the `ValueError` raised by `int` on a non-numeric hour. -/
def is_scheduled_time (current_time : Instant) (schedule_preference : PyStr) : Option Bool :=
  if strContains schedule_preference jednouDenne then
    some (current_time.hour == 12)
  else
    match pySplit sepV schedule_preference with
    | [day_name, time_str] =>
      match pyInt ((pySplit [':'] time_str).headD []) with
      | none => none
      | some schedule_hour =>
        match day_mapping day_name with
        | some wd => some ((current_time.weekday == wd) && ((current_time.hour : Int) == schedule_hour))
        | none => some false
    | _ => some false

end Sched

/-! ### Lemmas about the string primitives -/

theorem isDigit_ne {c : Char} (hc : c.isDigit = true) (d : Char) (hd : d.isDigit = false) :
    c ≠ d := by
  intro e
  rw [e] at hc
  rw [hc] at hd
  cases hd

theorem isWhitespace_false_of_isDigit {c : Char} (hc : c.isDigit = true) :
    c.isWhitespace = false := by
  by_contra hw
  have hw2 : c.isWhitespace = true := by revert hw; cases c.isWhitespace <;> simp
  simp only [Char.isWhitespace, Bool.or_eq_true, decide_eq_true_eq] at hw2
  rcases hw2 with ((e | e) | e) | e <;> (subst e; exact absurd hc (by decide))

theorem strContains_false_of_not_mem {h : Char} {st s : PyStr} (hs : h ∉ s) :
    strContains s (h :: st) = false := by
  induction s with
  | nil => rfl
  | cons c t ih =>
    have hc : (h == c) = false := by
      simp only [beq_eq_false_iff_ne, ne_eq]
      intro e
      exact hs (by simp [e])
    simp only [strContains, List.isPrefixOf_cons₂, hc, Bool.false_and, Bool.false_or]
    exact ih (fun m => hs (List.mem_cons_of_mem c m))

theorem findSplit_eq {sep : PyStr} : ∀ {s pre post : PyStr},
    findSplit sep s = some (pre, post) → s = pre ++ sep ++ post := by
  intro s
  induction s with
  | nil =>
    intro pre post h
    simp only [findSplit] at h
    split at h
    · rename_i he
      rw [List.isEmpty_iff] at he
      rw [Option.some_inj, Prod.mk.injEq] at h
      obtain ⟨h1, h2⟩ := h
      subst he
      simp [← h1, ← h2]
    · cases h
  | cons c rest ih =>
    intro pre post h
    simp only [findSplit] at h
    split at h
    · rename_i hp
      rw [Option.some_inj, Prod.mk.injEq] at h
      obtain ⟨h1, h2⟩ := h
      obtain ⟨tail, htail⟩ := List.isPrefixOf_iff_prefix.mp hp
      rw [← h1, ← h2, ← htail, List.nil_append, List.drop_left]
    · cases hfs : findSplit sep rest with
      | none => rw [hfs] at h; cases h
      | some pp =>
        obtain ⟨pre2, post2⟩ := pp
        rw [hfs] at h
        rw [Option.some_inj, Prod.mk.injEq] at h
        obtain ⟨h1, h2⟩ := h
        rw [← h1, ← h2]
        simp [ih hfs]

theorem findSplit_length {sep s pre post : PyStr} (hsep : sep ≠ [])
    (h : findSplit sep s = some (pre, post)) : post.length < s.length := by
  have he := findSplit_eq h
  have hpos : 0 < sep.length := List.length_pos.mpr hsep
  have := congrArg List.length he
  simp only [List.length_append] at this
  omega

theorem findSplit_boundary {h : Char} {st : PyStr} : ∀ {xs rest : PyStr}, h ∉ xs →
    findSplit (h :: st) (xs ++ (h :: st) ++ rest) = some (xs, rest) := by
  intro xs
  induction xs with
  | nil =>
    intro rest _
    simp only [List.nil_append]
    show findSplit (h :: st) (h :: (st ++ rest)) = some ([], rest)
    simp only [findSplit]
    rw [if_pos]
    · congr 1
      congr 1
      show (h :: st ++ rest).drop (h :: st).length = rest
      exact List.drop_left _ _
    · exact List.isPrefixOf_iff_prefix.mpr ⟨rest, by simp⟩
  | cons c xs2 ih =>
    intro rest hmem
    have hc : (h == c) = false := by
      simp only [beq_eq_false_iff_ne, ne_eq]
      intro e
      exact hmem (by simp [e])
    have hpre : (h :: st).isPrefixOf (c :: (xs2 ++ (h :: st) ++ rest)) = false := by
      rw [List.isPrefixOf_cons₂, hc, Bool.false_and]
    have hih := @ih rest (fun m => hmem (List.mem_cons_of_mem c m))
    show findSplit (h :: st) (c :: (xs2 ++ (h :: st) ++ rest)) = some (c :: xs2, rest)
    simp only [findSplit]
    rw [hpre, if_neg Bool.false_ne_true, hih]

theorem findSplit_none_of_not_mem {h : Char} {st : PyStr} : ∀ {s : PyStr}, h ∉ s →
    findSplit (h :: st) s = none := by
  intro s
  induction s with
  | nil => intro _; simp [findSplit]
  | cons c t ih =>
    intro hmem
    have hc : (h == c) = false := by
      simp only [beq_eq_false_iff_ne, ne_eq]
      intro e
      exact hmem (by simp [e])
    have hpre : (h :: st).isPrefixOf (c :: t) = false := by
      rw [List.isPrefixOf_cons₂, hc, Bool.false_and]
    have hih := ih (fun m => hmem (List.mem_cons_of_mem c m))
    simp only [findSplit]
    rw [hpre, if_neg Bool.false_ne_true, hih]

theorem pySplitAux_fuel {sep : PyStr} (hsep : sep ≠ []) :
    ∀ f1 : Nat, ∀ {f2 : Nat} {s : PyStr}, s.length < f1 → s.length < f2 →
    pySplitAux sep f1 s = pySplitAux sep f2 s := by
  intro f1
  induction f1 with
  | zero => intro f2 s h1 _; omega
  | succ a ih =>
    intro f2 s h1 h2
    cases f2 with
    | zero => omega
    | succ b =>
      cases hfs : findSplit sep s with
      | none => simp [pySplitAux, hfs]
      | some pp =>
        obtain ⟨pre, post⟩ := pp
        have hlt : post.length < s.length := findSplit_length hsep hfs
        simp only [pySplitAux, hfs]
        rw [@ih b post (by omega) (by omega)]

theorem pySplitAux_succ (sep : PyStr) (fuel : Nat) (s : PyStr) :
    pySplitAux sep (fuel + 1) s =
      match findSplit sep s with
      | none => [s]
      | some (pre, post) => pre :: pySplitAux sep fuel post := rfl

theorem pySplit_eq_cons {sep s pre post : PyStr} (hsep : sep ≠ [])
    (h : findSplit sep s = some (pre, post)) :
    pySplit sep s = pre :: pySplit sep post := by
  have hlt : post.length < s.length := findSplit_length hsep h
  show pySplitAux sep (s.length + 1) s = pre :: pySplit sep post
  rw [pySplitAux_succ, h]
  show pre :: pySplitAux sep s.length post = pre :: pySplitAux sep (post.length + 1) post
  rw [@pySplitAux_fuel sep hsep s.length (post.length + 1) post (by omega) (by omega)]

theorem pySplit_eq_single {sep s : PyStr} (h : findSplit sep s = none) :
    pySplit sep s = [s] := by
  show pySplitAux sep (s.length + 1) s = [s]
  simp [pySplitAux, h]

/-! ### Decimal digit strings -/

theorem dropWhile_eq_self_all {p : Char → Bool} {l : PyStr} (h : ∀ c ∈ l, p c = false) :
    l.dropWhile p = l := by
  cases l with
  | nil => rfl
  | cons c t =>
    rw [List.dropWhile_cons, if_neg]
    simp [h c (List.mem_cons_self c t)]

theorem stripWS_all_digits {s : PyStr} (h : ∀ c ∈ s, c.isDigit = true) : stripWS s = s := by
  unfold stripWS
  rw [dropWhile_eq_self_all (fun c hc => isWhitespace_false_of_isDigit (h c hc)),
    dropWhile_eq_self_all (fun c hc =>
      isWhitespace_false_of_isDigit (h c (List.mem_reverse.mp hc))),
    List.reverse_reverse]

theorem pyInt_digits {s : PyStr} (hne : s ≠ []) (h : ∀ c ∈ s, c.isDigit = true) :
    pyInt s = some ((digitsToNat s : Nat) : Int) := by
  unfold pyInt
  rw [stripWS_all_digits h]
  cases s with
  | nil => exact absurd rfl hne
  | cons c ds =>
    have hcd := h c (List.mem_cons_self c ds)
    dsimp only
    rw [if_neg (isDigit_ne hcd '-' (by decide)), if_neg (isDigit_ne hcd '+' (by decide)),
      if_pos]
    exact List.all_eq_true.mpr (fun x hx => h x hx)

theorem digitsToNat_append (l : PyStr) (c : Char) :
    digitsToNat (l ++ [c]) = 10 * digitsToNat l + (c.toNat - 48) := by
  unfold digitsToNat
  rw [List.foldl_append]
  rfl

theorem digitChar_toNat {m : Nat} (hm : m < 10) : (Char.ofNat (48 + m)).toNat = 48 + m := by
  interval_cases m <;> decide

theorem natToDigitsAux_val : ∀ fuel n, n < fuel → digitsToNat (natToDigitsAux fuel n) = n := by
  intro fuel
  induction fuel with
  | zero => intro n h; omega
  | succ f ih =>
    intro n h
    by_cases h10 : n < 10
    · simp only [natToDigitsAux, if_pos h10]
      have ht := digitChar_toNat h10
      simp [digitsToNat, ht]
    · simp only [natToDigitsAux, if_neg h10]
      rw [digitsToNat_append, ih (n / 10) (by omega),
        digitChar_toNat (Nat.mod_lt _ (by omega))]
      omega

theorem natToDigits_val (n : Nat) : digitsToNat (natToDigits n) = n :=
  natToDigitsAux_val _ _ (by omega)

theorem natToDigits_inj {a b : Nat} (h : natToDigits a = natToDigits b) : a = b := by
  have ha := natToDigits_val a
  rw [h, natToDigits_val] at ha
  exact ha.symm

/-! ### Analysis of the Due-Time Evaluator -/

theorem day_mapping_chars {d : PyStr} {w : Nat} (hd : Sched.day_mapping d = some w) :
    ' ' ∉ d ∧ 'J' ∉ d := by
  unfold Sched.day_mapping at hd
  split_ifs at hd with h1 h2 h3 h4 h5 h6 h7
  · subst h1; decide
  · subst h2; decide
  · subst h3; decide
  · subst h4; decide
  · subst h5; decide
  · subst h6; decide
  · subst h7; decide

theorem jednouDenne_head : Sched.jednouDenne = 'J' :: "ednou denně".toList := rfl

theorem sepV_eq : Sched.sepV = ' ' :: ['v', ' '] := rfl

/-- Core computation: on an entry `<day> v <digits>:<digits>` with a recognized
day, the evaluator compares the weekday against the table entry and the hour
against the value of the digits before the colon. -/
theorem eval_day_entry (t : Instant) (d : PyStr) (w : Nat)
    (hd : Sched.day_mapping d = some w) (hsp : ' ' ∉ d) (hJ : 'J' ∉ d)
    (hs ms : PyStr) (hs0 : hs ≠ [])
    (hsd : ∀ c ∈ hs, c.isDigit = true) (hmd : ∀ c ∈ ms, c.isDigit = true) :
    Sched.is_scheduled_time t (d ++ Sched.sepV ++ (hs ++ ':' :: ms))
      = some (decide (t.weekday = w ∧ t.hour = digitsToNat hs)) := by
  have hJentry : 'J' ∉ d ++ Sched.sepV ++ (hs ++ ':' :: ms) := by
    intro m
    rcases List.mem_append.mp m with m1 | m2
    · rcases List.mem_append.mp m1 with m3 | m4
      · exact hJ m3
      · rw [sepV_eq] at m4; revert m4; decide
    · rcases List.mem_append.mp m2 with m5 | m6
      · exact absurd (hsd 'J' m5) (by decide)
      · rcases List.mem_cons.mp m6 with m7 | m8
        · cases m7
        · exact absurd (hmd 'J' m8) (by decide)
  have hmark : strContains (d ++ Sched.sepV ++ (hs ++ ':' :: ms)) Sched.jednouDenne = false := by
    rw [jednouDenne_head]
    exact strContains_false_of_not_mem hJentry
  have hnospace : ' ' ∉ hs ++ ':' :: ms := by
    intro m
    rcases List.mem_append.mp m with m1 | m2
    · exact absurd (hsd ' ' m1) (by decide)
    · rcases List.mem_cons.mp m2 with m3 | m4
      · cases m3
      · exact absurd (hmd ' ' m4) (by decide)
  have hfs1 : findSplit Sched.sepV (d ++ Sched.sepV ++ (hs ++ ':' :: ms))
      = some (d, hs ++ ':' :: ms) := by
    rw [sepV_eq]
    exact findSplit_boundary hsp
  have hfs2 : findSplit Sched.sepV (hs ++ ':' :: ms) = none := by
    rw [sepV_eq]
    exact findSplit_none_of_not_mem hnospace
  have hsplit1 : pySplit Sched.sepV (d ++ Sched.sepV ++ (hs ++ ':' :: ms))
      = [d, hs ++ ':' :: ms] := by
    rw [pySplit_eq_cons (by decide) hfs1, pySplit_eq_single hfs2]
  have hcolmem : ':' ∉ hs := fun m => absurd (hsd ':' m) (by decide)
  have hcol : findSplit [':'] (hs ++ ':' :: ms) = some (hs, ms) := by
    have he : hs ++ ':' :: ms = hs ++ [':'] ++ ms := by simp
    rw [he]
    exact findSplit_boundary hcolmem
  have hsplit2 : pySplit [':'] (hs ++ ':' :: ms) = hs :: pySplit [':'] ms :=
    pySplit_eq_cons (by decide) hcol
  simp only [Sched.is_scheduled_time]
  rw [hmark, if_neg Bool.false_ne_true, hsplit1]
  dsimp only
  rw [hsplit2]
  dsimp only [List.headD]
  rw [pyInt_digits hs0 hsd]
  dsimp only
  rw [hd]
  dsimp only
  congr 1
  by_cases h1 : t.weekday = w <;> by_cases h2 : t.hour = digitsToNat hs <;>
    simp [h1, h2]

/-- Claim C3: for every entry of the form `<day> v <HH:MM>` with a recognized
day name, the evaluator returns true exactly when the weekday of the instant
equals the table entry of the day and the hour of the instant equals the value
of `HH`; the minutes of the entry (`ms`) and of the instant (`t.minute`) play
no role. -/
theorem C3_day_entry_eval (t : Instant) (d : PyStr) (w : Nat)
    (hd : Sched.day_mapping d = some w)
    (hs ms : PyStr) (hs0 : hs ≠ [])
    (hsd : ∀ c ∈ hs, c.isDigit = true) (hmd : ∀ c ∈ ms, c.isDigit = true) :
    Sched.is_scheduled_time t (d ++ Sched.sepV ++ (hs ++ ':' :: ms))
      = some (decide (t.weekday = w ∧ t.hour = digitsToNat hs)) := by
  obtain ⟨hspc, hJc⟩ := day_mapping_chars hd
  exact eval_day_entry t d w hd hspc hJc hs ms hs0 hsd hmd

/-- Witness for C3: the end-to-end example of the specification, entry
`Středa v 12:07` evaluated on a Wednesday at 12:07, is due; moving to
Thursday or to 11:07 makes it not due. -/
theorem C3_day_entry_eval_witness :
    Sched.is_scheduled_time ⟨2, 12, 7⟩
        ("Středa".toList ++ Sched.sepV ++ ("12".toList ++ ':' :: "07".toList)) = some true ∧
    Sched.is_scheduled_time ⟨3, 12, 7⟩
        ("Středa".toList ++ Sched.sepV ++ ("12".toList ++ ':' :: "07".toList)) = some false := by
  constructor
  · rw [C3_day_entry_eval ⟨2, 12, 7⟩ "Středa".toList 2 (by decide) "12".toList "07".toList
      (by decide) (by decide) (by decide)]
    decide
  · rw [C3_day_entry_eval ⟨3, 12, 7⟩ "Středa".toList 2 (by decide) "12".toList "07".toList
      (by decide) (by decide) (by decide)]
    decide

/-- Claim C4: any schedule string containing the daily marker makes the
evaluator return true exactly when the hour of the instant is 12, for every
weekday and minute. -/
theorem C4_daily_marker_eval (sp : PyStr) (t : Instant)
    (h : strContains sp Sched.jednouDenne = true) :
    Sched.is_scheduled_time t sp = some (decide (t.hour = 12)) := by
  simp only [Sched.is_scheduled_time]
  rw [h, if_pos rfl]
  congr 1

/-- Witness for C4: the literal daily marker string is due at hour 12 and not
due at hour 13, independently of the weekday. -/
theorem C4_daily_marker_eval_witness :
    Sched.is_scheduled_time ⟨5, 12, 45⟩ "Jednou denně".toList = some true ∧
    Sched.is_scheduled_time ⟨5, 13, 0⟩ "Jednou denně".toList = some false := by
  constructor
  · rw [C4_daily_marker_eval "Jednou denně".toList ⟨5, 12, 45⟩ (by decide)]
    decide
  · rw [C4_daily_marker_eval "Jednou denně".toList ⟨5, 13, 0⟩ (by decide)]
    decide

/-- Counterexample for C5: the entry `Foo v x:00` has no daily marker and an
unrecognized day token, yet the evaluator does not return false there: the
conversion of the hour raises, modelled by `none`. -/
theorem C5_counterexample :
    strContains "Foo v x:00".toList Sched.jednouDenne = false ∧
    pySplit Sched.sepV "Foo v x:00".toList = ["Foo".toList, "x:00".toList] ∧
    Sched.day_mapping "Foo".toList = none ∧
    Sched.is_scheduled_time ⟨2, 10, 0⟩ "Foo v x:00".toList ≠ some false := by decide

/-- Claim C5 as amended: an entry without the daily marker whose day token is
unrecognized makes the evaluator return false at every instant, provided the
hour component converts to an integer whenever the entry splits into exactly
two parts. -/
theorem C5_amended_unrecognized_day (sp : PyStr) (t : Instant)
    (hm : strContains sp Sched.jednouDenne = false)
    (hok : match pySplit Sched.sepV sp with
      | [dn, ts] => Sched.day_mapping dn = none ∧
          (pyInt ((pySplit [':'] ts).headD [])).isSome = true
      | _ => True) :
    Sched.is_scheduled_time t sp = some false := by
  simp only [Sched.is_scheduled_time]
  rw [hm, if_neg Bool.false_ne_true]
  cases hsp : pySplit Sched.sepV sp with
  | nil => rfl
  | cons a l1 =>
    cases l1 with
    | nil => rfl
    | cons b l2 =>
      cases l2 with
      | cons c l3 => rfl
      | nil =>
        rw [hsp] at hok
        obtain ⟨hdm, hso⟩ := hok
        obtain ⟨v, hv⟩ := Option.isSome_iff_exists.mp hso
        dsimp only
        rw [hv]
        dsimp only
        rw [hdm]

/-- Witness for C5 as amended: `Foo v 10:00` is never due. -/
theorem C5_amended_witness :
    Sched.is_scheduled_time ⟨0, 10, 0⟩ "Foo v 10:00".toList = some false :=
  C5_amended_unrecognized_day "Foo v 10:00".toList ⟨0, 10, 0⟩ (by decide)
    (show Sched.day_mapping "Foo".toList = none ∧
        (pyInt ((pySplit [':'] "10:00".toList).headD [])).isSome = true from
      ⟨by decide, by decide⟩)

/-- Counterexample for C6: schedule parsing is not total. On `Pondělí v ab:00`
the evaluator raises a conversion error (modelled by `none`) instead of
returning a boolean. -/
theorem C6_counterexample :
    (Sched.is_scheduled_time ⟨0, 10, 0⟩ "Pondělí v ab:00".toList).isSome = false := by decide

/-- Claim C6 as amended: the evaluator returns a boolean on every schedule
string except those that split into exactly two parts around the day separator
with an hour component that does not convert to an integer. -/
theorem C6_amended_totality (sp : PyStr) (t : Instant)
    (h : strContains sp Sched.jednouDenne = true ∨
      (match pySplit Sched.sepV sp with
        | [_dn, ts] => (pyInt ((pySplit [':'] ts).headD [])).isSome = true
        | _ => True)) :
    (Sched.is_scheduled_time t sp).isSome = true := by
  by_cases hm : strContains sp Sched.jednouDenne = true
  · simp [Sched.is_scheduled_time, hm]
  · have hm2 : strContains sp Sched.jednouDenne = false := by
      revert hm; cases strContains sp Sched.jednouDenne <;> simp
    rcases h with h | h
    · exact absurd h hm
    · simp only [Sched.is_scheduled_time]
      rw [hm2, if_neg Bool.false_ne_true]
      cases hsp : pySplit Sched.sepV sp with
      | nil => rfl
      | cons a l1 =>
        cases l1 with
        | nil => rfl
        | cons b l2 =>
          cases l2 with
          | cons c l3 => rfl
          | nil =>
            rw [hsp] at h
            obtain ⟨v, hv⟩ := Option.isSome_iff_exists.mp h
            dsimp only
            rw [hv]
            dsimp only
            cases Sched.day_mapping a <;> rfl

/-- Witness for C6 as amended: the empty schedule string evaluates to a
boolean (false) without failing. -/
theorem C6_amended_witness : (Sched.is_scheduled_time ⟨0, 0, 0⟩ [] ).isSome = true :=
  C6_amended_totality [] ⟨0, 0, 0⟩ (Or.inr trivial)

/-! ### The Scheduler Sweep (`lambda_handler` of `centralSchedulerLambda.py`)

The DynamoDB scan result is a list of items carrying the attributes the
handler reads; the SQS queue is a list of task bodies. The scan call and each
`send_message` call can fail, so the scan outcome and a per-message success
oracle are parameters of the embedding. -/

namespace Sched

/-- One scanned record of the `UserPreferences` table, with the nested
`preferences` map flattened into its fields. -/
structure Item where
  user_id : PyStr
  user_role : PyStr
  frekvence_zasilani : PyStr
  email_pro_zasilani_vysledku : PyStr
  klicova_slova : PyStr
  popis_firmy : PyStr
deriving DecidableEq

/-- The body of one SQS message built by the sweep. -/
structure TaskDetails where
  user_id : PyStr
  email : PyStr
  keywords : PyStr
  description : PyStr
  role : PyStr
  frekvence_zasilani : PyStr
deriving DecidableEq

/-- The `task_details` dictionary built for a due item. -/
def mkTaskDetails (item : Item) : TaskDetails :=
  { user_id := item.user_id
    email := item.email_pro_zasilani_vysledku
    keywords := item.klicova_slova
    description := item.popis_firmy
    role := item.user_role
    frekvence_zasilani := item.frekvence_zasilani }

/-- The externally visible state the sweep touches: the preference store it
scans and the dispatch queue it appends to. -/
structure SweepWorld where
  store : List Item
  queue : List TaskDetails
deriving DecidableEq

/-- Result of one sweep invocation: the 500 response after a failed scan, an
uncaught exception from the evaluator, or the 200 response carrying the count
of successful sends. -/
inductive SweepOutcome where
  | error500
  | raised
  | ok (successful_sends : Nat)
deriving DecidableEq

/-- The per-item loop of the handler: returns the messages sent (in order)
and the count of successful sends, `none` when an uncaught exception stopped
the loop. `oracle` tells whether a given `send_message` call succeeds. -/
def sweepLoop (oracle : TaskDetails → Bool) (now : Instant) : List Item → List TaskDetails × Option Nat
  | [] => ([], some 0)
  | item :: rest =>
    match is_scheduled_time now item.frekvence_zasilani with
    | none => ([], none)
    | some b =>
      if b then
        let td := mkTaskDetails item
        if oracle td then
          let r := sweepLoop oracle now rest
          (td :: r.1, r.2.map (· + 1))
        else sweepLoop oracle now rest
      else sweepLoop oracle now rest

/-- Embedding of the sweep `lambda_handler`: `scan_ok = false` models a
failing DynamoDB scan. The handler returns the final world (the store it saw
and the queue extended by the sent messages) and its outcome. -/
def lambda_handler (scan_ok : Bool) (oracle : TaskDetails → Bool) (now : Instant)
    (w : SweepWorld) : SweepWorld × SweepOutcome :=
  if scan_ok then
    let r := sweepLoop oracle now w.store
    ({ w with queue := w.queue ++ r.1 },
      match r.2 with
      | some n => SweepOutcome.ok n
      | none => SweepOutcome.raised)
  else (w, SweepOutcome.error500)

/-- An item is due when the evaluator returns true on its schedule string. -/
def isDue (now : Instant) (item : Item) : Bool :=
  is_scheduled_time now item.frekvence_zasilani == some true

end Sched

/-- The sweep loop sends exactly the due items whose enqueue succeeds, in scan
order, and counts them. -/
theorem sweepLoop_eq (oracle : Sched.TaskDetails → Bool) (now : Instant) :
    ∀ items : List Sched.Item,
    (∀ it ∈ items, (Sched.is_scheduled_time now it.frekvence_zasilani).isSome = true) →
    Sched.sweepLoop oracle now items =
      (((items.filter (fun it => Sched.isDue now it && oracle (Sched.mkTaskDetails it))).map
          Sched.mkTaskDetails),
        some (items.filter
          (fun it => Sched.isDue now it && oracle (Sched.mkTaskDetails it))).length) := by
  intro items
  induction items with
  | nil => intro _; rfl
  | cons item rest ih =>
    intro hEval
    have hrest := ih (fun it m => hEval it (List.mem_cons_of_mem item m))
    cases hev : Sched.is_scheduled_time now item.frekvence_zasilani with
    | none =>
      have := hEval item (List.mem_cons_self item rest)
      rw [hev] at this
      cases this
    | some b =>
      have hdue : Sched.isDue now item = b := by
        unfold Sched.isDue
        rw [hev]
        cases b <;> decide
      cases b with
      | false =>
        simp [Sched.sweepLoop, hev, hrest, List.filter_cons, hdue]
      | true =>
        cases hor : oracle (Sched.mkTaskDetails item) with
        | false =>
          simp [Sched.sweepLoop, hev, hor, hrest, List.filter_cons, hdue]
        | true =>
          simp [Sched.sweepLoop, hev, hor, hrest, List.filter_cons, hdue]

/-- Claim C1: with a successful scan over records that all evaluate, and every
enqueue succeeding, the sweep enqueues exactly the due records (one message
per due record, none for the rest, in scan order) and returns 200 with the
number of due records as its count of successful dispatches. -/
theorem C1_sweep_dispatch_count (w : Sched.SweepWorld) (now : Instant)
    (oracle : Sched.TaskDetails → Bool)
    (hEval : ∀ it ∈ w.store, (Sched.is_scheduled_time now it.frekvence_zasilani).isSome = true)
    (hOracle : ∀ td, oracle td = true) :
    Sched.lambda_handler true oracle now w =
      ({ w with queue := w.queue ++ (w.store.filter (Sched.isDue now)).map Sched.mkTaskDetails },
        Sched.SweepOutcome.ok (w.store.filter (Sched.isDue now)).length) := by
  have hfe : w.store.filter (fun it => Sched.isDue now it && oracle (Sched.mkTaskDetails it))
      = w.store.filter (Sched.isDue now) := by
    apply List.filter_congr
    intro it _
    rw [hOracle (Sched.mkTaskDetails it), Bool.and_true]
  simp [Sched.lambda_handler, sweepLoop_eq oracle now w.store hEval, hfe]

/-- Witness for C1: two records, one due (daily marker at noon) and one not
(Monday entry on a Wednesday); exactly one message is enqueued and the count
is 1. -/
theorem C1_sweep_dispatch_count_witness :
    Sched.lambda_handler true (fun _ => true) ⟨2, 12, 30⟩
        ⟨[⟨"1".toList, "customer".toList, "Jednou denně".toList, "a@b.cz".toList,
            "kw".toList, "firma".toList⟩,
          ⟨"2".toList, "customer".toList, "Pondělí v 09:00".toList, "c@d.cz".toList,
            "kw2".toList, "firma2".toList⟩], []⟩ =
      (⟨[⟨"1".toList, "customer".toList, "Jednou denně".toList, "a@b.cz".toList,
            "kw".toList, "firma".toList⟩,
          ⟨"2".toList, "customer".toList, "Pondělí v 09:00".toList, "c@d.cz".toList,
            "kw2".toList, "firma2".toList⟩],
        [⟨"1".toList, "a@b.cz".toList, "kw".toList, "firma".toList, "customer".toList,
          "Jednou denně".toList⟩]⟩,
        Sched.SweepOutcome.ok 1) := by
  rw [C1_sweep_dispatch_count _ ⟨2, 12, 30⟩ (fun _ => true) (by decide) (fun _ => rfl)]
  decide

/-- Claim C8: a failed scan aborts the sweep with the 500 response and an
unchanged queue, while after a successful scan a per-record enqueue failure is
skipped: exactly the due records whose enqueue succeeds are sent, the sweep
still completes with 200 and counts the successes. -/
theorem C8_scan_abort_and_partial_isolation (w : Sched.SweepWorld) (now : Instant)
    (oracle : Sched.TaskDetails → Bool)
    (hEval : ∀ it ∈ w.store, (Sched.is_scheduled_time now it.frekvence_zasilani).isSome = true) :
    Sched.lambda_handler false oracle now w = (w, Sched.SweepOutcome.error500) ∧
    Sched.lambda_handler true oracle now w =
      ({ w with queue := w.queue ++
          (w.store.filter (fun it => Sched.isDue now it &&
            oracle (Sched.mkTaskDetails it))).map Sched.mkTaskDetails },
        Sched.SweepOutcome.ok (w.store.filter (fun it => Sched.isDue now it &&
          oracle (Sched.mkTaskDetails it))).length) := by
  constructor
  · rfl
  · simp [Sched.lambda_handler, sweepLoop_eq oracle now w.store hEval]

/-- Witness for C8: with two due records and an oracle that fails for the
first user only, the sweep still sends the second message and returns 200
with count 1; and a failed scan returns the 500 outcome with nothing sent. -/
theorem C8_scan_abort_and_partial_isolation_witness :
    Sched.lambda_handler false (fun _ => true) ⟨2, 12, 0⟩
        ⟨[⟨"1".toList, "r".toList, "Jednou denně".toList, "e".toList, "k".toList,
            "p".toList⟩], []⟩ =
      (⟨[⟨"1".toList, "r".toList, "Jednou denně".toList, "e".toList, "k".toList,
            "p".toList⟩], []⟩, Sched.SweepOutcome.error500) ∧
    Sched.lambda_handler true (fun td => !(td.user_id == "1".toList)) ⟨2, 12, 0⟩
        ⟨[⟨"1".toList, "r".toList, "Jednou denně".toList, "e".toList, "k".toList,
            "p".toList⟩,
          ⟨"2".toList, "r".toList, "Jednou denně".toList, "e2".toList, "k2".toList,
            "p2".toList⟩], []⟩ =
      (⟨[⟨"1".toList, "r".toList, "Jednou denně".toList, "e".toList, "k".toList,
            "p".toList⟩,
          ⟨"2".toList, "r".toList, "Jednou denně".toList, "e2".toList, "k2".toList,
            "p2".toList⟩],
        [⟨"2".toList, "e2".toList, "k2".toList, "p2".toList, "r".toList,
          "Jednou denně".toList⟩]⟩,
        Sched.SweepOutcome.ok 1) := by
  constructor
  · exact (C8_scan_abort_and_partial_isolation _ ⟨2, 12, 0⟩ (fun _ => true) (by decide)).1
  · rw [(C8_scan_abort_and_partial_isolation _ ⟨2, 12, 0⟩
      (fun td => !(td.user_id == "1".toList)) (by decide)).2]
    decide

/-- Claim C9: the sweep never mutates the preference store: whatever the scan
outcome, the enqueue oracle and the instant, the store after the handler runs
is the store it started from. -/
theorem C9_sweep_never_mutates_store (scan_ok : Bool) (oracle : Sched.TaskDetails → Bool)
    (now : Instant) (w : Sched.SweepWorld) :
    ((Sched.lambda_handler scan_ok oracle now w).1).store = w.store := by
  cases scan_ok <;> simp [Sched.lambda_handler]

/-! ### The Reconciliation Sweeper (`CheckUserRole.py`)

The WordPress role authority is a parameter mapping each probed user id to
its response. The handler walks the ids 1..99 in order, deleting the
preference record of a user that has neither of the two authorized roles or
that the authority does not know, and logging every per-user error. -/

namespace Recon

/-- Outcome of `GET /user-role/{user_id}`: a parsed role list, an HTTP error
with its status code, or any other exception. -/
inductive RoleResponse where
  | ok (roles : List PyStr)
  | httpError (code : Nat)
  | otherError
deriving DecidableEq

/-- One record of the `UserPreferences` table, keyed by `user_id`; the other
attributes are opaque here. -/
structure Record where
  user_id : PyStr
  attrs : PyStr
deriving DecidableEq

/-- DynamoDB `delete_item` on the `user_id` key. -/
def delete_item (store : List Record) (key : PyStr) : List Record :=
  store.filter (fun r => !(r.user_id == key))

/-- The error lines the handler prints. -/
inductive LogEvent where
  | httpFail (uid code : Nat)
  | unhandled (uid : Nat)
deriving DecidableEq

def logUid : LogEvent → Nat
  | .httpFail uid _ => uid
  | .unhandled uid => uid

def customerRole : PyStr := "customer".toList

def adminRole : PyStr := "administrator".toList

/-- The per-user loop of the handler over a list of user ids. -/
def cleanupGo (auth : Nat → RoleResponse) : List Nat → List Record → List LogEvent →
    List Record × List LogEvent
  | [], store, log => (store, log)
  | uid :: rest, store, log =>
    match auth uid with
    | .ok roles =>
      if roles.contains customerRole || roles.contains adminRole then
        cleanupGo auth rest store log
      else
        cleanupGo auth rest (delete_item store (natToDigits uid)) log
    | .httpError code =>
      if code == 404 then
        cleanupGo auth rest (delete_item store (natToDigits uid)) (log ++ [.httpFail uid code])
      else
        cleanupGo auth rest store (log ++ [.httpFail uid code])
    | .otherError => cleanupGo auth rest store (log ++ [.unhandled uid])

/-- Embedding of the `lambda_handler` of `CheckUserRole.py`: Python
`range(1, 100)` is the id list `[1, ..., 99]`. -/
def lambda_handler (auth : Nat → RoleResponse) (store : List Record) :
    List Record × List LogEvent :=
  cleanupGo auth (List.range' 1 99) store []

/-- The delete condition of the handler: authority knows the user but grants
neither authorized role, or reports the user unknown. -/
def deleteSignal : RoleResponse → Bool
  | .ok roles => !(roles.contains customerRole || roles.contains adminRole)
  | .httpError code => code == 404
  | .otherError => false

end Recon

theorem mem_delete_item {store : List Recon.Record} {key : PyStr} {r : Recon.Record} :
    r ∈ Recon.delete_item store key ↔ r ∈ store ∧ r.user_id ≠ key := by
  simp [Recon.delete_item, List.mem_filter]

/-- A record survives the per-user loop exactly when it was there initially
and no probed user id that triggers deletion matches its key. -/
theorem cleanupGo_mem (auth : Nat → Recon.RoleResponse) :
    ∀ (uids : List Nat) (store : List Recon.Record) (log : List Recon.LogEvent)
      (r : Recon.Record),
    r ∈ (Recon.cleanupGo auth uids store log).1 ↔
      r ∈ store ∧ ∀ i ∈ uids, Recon.deleteSignal (auth i) = true → r.user_id ≠ natToDigits i := by
  intro uids
  induction uids with
  | nil => intro store log r; simp [Recon.cleanupGo]
  | cons uid rest ih =>
    intro store log r
    cases hau : auth uid with
    | ok roles =>
      by_cases hkeep : (roles.contains Recon.customerRole ||
          roles.contains Recon.adminRole) = true
      · have hsig : Recon.deleteSignal (Recon.RoleResponse.ok roles) = false := by
          simp only [Recon.deleteSignal, hkeep, Bool.not_true]
        simp only [Recon.cleanupGo, hau, if_pos hkeep, ih, List.forall_mem_cons, hsig,
          Bool.false_eq_true, false_implies, true_and]
      · have hkeep2 : (roles.contains Recon.customerRole ||
            roles.contains Recon.adminRole) = false := by
          revert hkeep; cases (roles.contains Recon.customerRole ||
            roles.contains Recon.adminRole) <;> simp
        have hsig : Recon.deleteSignal (Recon.RoleResponse.ok roles) = true := by
          simp only [Recon.deleteSignal, hkeep2, Bool.not_false]
        simp only [Recon.cleanupGo, hau, hkeep2, Bool.false_eq_true, if_false, ih,
          mem_delete_item, List.forall_mem_cons, hsig, true_implies]
        tauto
    | httpError code =>
      by_cases h404 : (code == 404) = true
      · have hsig : Recon.deleteSignal (Recon.RoleResponse.httpError code) = true := by
          simp only [Recon.deleteSignal]
          exact h404
        simp only [Recon.cleanupGo, hau, if_pos h404, ih, mem_delete_item,
          List.forall_mem_cons, hsig, true_implies]
        tauto
      · have h404f : (code == 404) = false := by
          revert h404; cases (code == 404) <;> simp
        have hsig : Recon.deleteSignal (Recon.RoleResponse.httpError code) = false := by
          simp only [Recon.deleteSignal]
          exact h404f
        simp only [Recon.cleanupGo, hau, h404f, Bool.false_eq_true, if_false, ih,
          List.forall_mem_cons, hsig, false_implies, true_and]
    | otherError =>
      have hsig : Recon.deleteSignal Recon.RoleResponse.otherError = false := rfl
      simp only [Recon.cleanupGo, hau, ih, List.forall_mem_cons, hsig,
        Bool.false_eq_true, false_implies, true_and]

theorem cleanupGo_log_mono (auth : Nat → Recon.RoleResponse) :
    ∀ (uids : List Nat) (store : List Recon.Record) (log : List Recon.LogEvent)
      (e : Recon.LogEvent), e ∈ log → e ∈ (Recon.cleanupGo auth uids store log).2 := by
  intro uids
  induction uids with
  | nil => intro store log e he; exact he
  | cons uid rest ih =>
    intro store log e he
    cases hau : auth uid with
    | ok roles =>
      by_cases hkeep : (roles.contains Recon.customerRole ||
          roles.contains Recon.adminRole) = true
      · simp only [Recon.cleanupGo, hau, if_pos hkeep]
        exact ih _ _ e he
      · have hkeep2 : (roles.contains Recon.customerRole ||
            roles.contains Recon.adminRole) = false := by
          revert hkeep; cases (roles.contains Recon.customerRole ||
            roles.contains Recon.adminRole) <;> simp
        simp only [Recon.cleanupGo, hau, hkeep2, Bool.false_eq_true, if_false]
        exact ih _ _ e he
    | httpError code =>
      by_cases h404 : (code == 404) = true
      · simp only [Recon.cleanupGo, hau, if_pos h404]
        exact ih _ _ e (List.mem_append_left _ he)
      · have h404f : (code == 404) = false := by
          revert h404; cases (code == 404) <;> simp
        simp only [Recon.cleanupGo, hau, h404f, Bool.false_eq_true, if_false]
        exact ih _ _ e (List.mem_append_left _ he)
    | otherError =>
      simp only [Recon.cleanupGo, hau]
      exact ih _ _ e (List.mem_append_left _ he)

theorem cleanupGo_log_httpFail (auth : Nat → Recon.RoleResponse) :
    ∀ (uids : List Nat) (store : List Recon.Record) (log : List Recon.LogEvent)
      (uid code : Nat), uid ∈ uids → auth uid = .httpError code →
    Recon.LogEvent.httpFail uid code ∈ (Recon.cleanupGo auth uids store log).2 := by
  intro uids
  induction uids with
  | nil => intro store log uid code hm _; cases hm
  | cons u rest ih =>
    intro store log uid code hm hau
    rcases List.mem_cons.mp hm with he | hm2
    · subst he
      cases hc : auth uid with
      | ok roles => rw [hau] at hc; cases hc
      | otherError => rw [hau] at hc; cases hc
      | httpError code2 =>
        rw [hau] at hc
        obtain rfl : code = code2 := by cases hc; rfl
        by_cases h404 : (code == 404) = true
        · simp only [Recon.cleanupGo, hau, if_pos h404]
          exact cleanupGo_log_mono auth rest _ _ _
            (List.mem_append_right _ (List.mem_singleton_self _))
        · have h404f : (code == 404) = false := by
            revert h404; cases (code == 404) <;> simp
          simp only [Recon.cleanupGo, hau, h404f, Bool.false_eq_true, if_false]
          exact cleanupGo_log_mono auth rest _ _ _
            (List.mem_append_right _ (List.mem_singleton_self _))
    · cases hc : auth u with
      | ok roles =>
        by_cases hkeep : (roles.contains Recon.customerRole ||
            roles.contains Recon.adminRole) = true
        · simp only [Recon.cleanupGo, hc, if_pos hkeep]
          exact ih _ _ uid code hm2 hau
        · have hkeep2 : (roles.contains Recon.customerRole ||
              roles.contains Recon.adminRole) = false := by
            revert hkeep; cases (roles.contains Recon.customerRole ||
              roles.contains Recon.adminRole) <;> simp
          simp only [Recon.cleanupGo, hc, hkeep2, Bool.false_eq_true, if_false]
          exact ih _ _ uid code hm2 hau
      | httpError code2 =>
        by_cases h404 : (code2 == 404) = true
        · simp only [Recon.cleanupGo, hc, if_pos h404]
          exact ih _ _ uid code hm2 hau
        · have h404f : (code2 == 404) = false := by
            revert h404; cases (code2 == 404) <;> simp
          simp only [Recon.cleanupGo, hc, h404f, Bool.false_eq_true, if_false]
          exact ih _ _ uid code hm2 hau
      | otherError =>
        simp only [Recon.cleanupGo, hc]
        exact ih _ _ uid code hm2 hau

theorem cleanupGo_log_unhandled (auth : Nat → Recon.RoleResponse) :
    ∀ (uids : List Nat) (store : List Recon.Record) (log : List Recon.LogEvent)
      (uid : Nat), uid ∈ uids → auth uid = .otherError →
    Recon.LogEvent.unhandled uid ∈ (Recon.cleanupGo auth uids store log).2 := by
  intro uids
  induction uids with
  | nil => intro store log uid hm _; cases hm
  | cons u rest ih =>
    intro store log uid hm hau
    rcases List.mem_cons.mp hm with he | hm2
    · subst he
      simp only [Recon.cleanupGo, hau]
      exact cleanupGo_log_mono auth rest _ _ _
        (List.mem_append_right _ (List.mem_singleton_self _))
    · cases hc : auth u with
      | ok roles =>
        by_cases hkeep : (roles.contains Recon.customerRole ||
            roles.contains Recon.adminRole) = true
        · simp only [Recon.cleanupGo, hc, if_pos hkeep]
          exact ih _ _ uid hm2 hau
        · have hkeep2 : (roles.contains Recon.customerRole ||
              roles.contains Recon.adminRole) = false := by
            revert hkeep; cases (roles.contains Recon.customerRole ||
              roles.contains Recon.adminRole) <;> simp
          simp only [Recon.cleanupGo, hc, hkeep2, Bool.false_eq_true, if_false]
          exact ih _ _ uid hm2 hau
      | httpError code2 =>
        by_cases h404 : (code2 == 404) = true
        · simp only [Recon.cleanupGo, hc, if_pos h404]
          exact ih _ _ uid hm2 hau
        · have h404f : (code2 == 404) = false := by
            revert h404; cases (code2 == 404) <;> simp
          simp only [Recon.cleanupGo, hc, h404f, Bool.false_eq_true, if_false]
          exact ih _ _ uid hm2 hau
      | otherError =>
        simp only [Recon.cleanupGo, hc]
        exact ih _ _ uid hm2 hau

theorem cleanupGo_log_uids (auth : Nat → Recon.RoleResponse) :
    ∀ (uids : List Nat) (store : List Recon.Record) (log : List Recon.LogEvent)
      (e : Recon.LogEvent), e ∈ (Recon.cleanupGo auth uids store log).2 →
      e ∈ log ∨ Recon.logUid e ∈ uids := by
  intro uids
  induction uids with
  | nil => intro store log e he; exact Or.inl he
  | cons u rest ih =>
    intro store log e he
    have step : ∀ (store2 : List Recon.Record) (ev : List Recon.LogEvent),
        (∀ x ∈ ev, Recon.logUid x = u) →
        e ∈ (Recon.cleanupGo auth rest store2 (log ++ ev)).2 →
        e ∈ log ∨ Recon.logUid e ∈ u :: rest := by
      intro store2 ev hev he2
      rcases ih store2 (log ++ ev) e he2 with h1 | h2
      · rcases List.mem_append.mp h1 with h3 | h4
        · exact Or.inl h3
        · exact Or.inr (by rw [hev e h4]; exact List.mem_cons_self u rest)
      · exact Or.inr (List.mem_cons_of_mem u h2)
    cases hc : auth u with
    | ok roles =>
      by_cases hkeep : (roles.contains Recon.customerRole ||
          roles.contains Recon.adminRole) = true
      · simp only [Recon.cleanupGo, hc, if_pos hkeep] at he
        exact step store [] (by simp) (by simpa using he)
      · have hkeep2 : (roles.contains Recon.customerRole ||
            roles.contains Recon.adminRole) = false := by
          revert hkeep; cases (roles.contains Recon.customerRole ||
            roles.contains Recon.adminRole) <;> simp
        simp only [Recon.cleanupGo, hc, hkeep2, Bool.false_eq_true, if_false] at he
        exact step _ [] (by simp) (by simpa using he)
    | httpError code =>
      by_cases h404 : (code == 404) = true
      · simp only [Recon.cleanupGo, hc, if_pos h404] at he
        exact step _ [Recon.LogEvent.httpFail u code] (by simp [Recon.logUid]) he
      · have h404f : (code == 404) = false := by
          revert h404; cases (code == 404) <;> simp
        simp only [Recon.cleanupGo, hc, h404f, Bool.false_eq_true, if_false] at he
        exact step _ [Recon.LogEvent.httpFail u code] (by simp [Recon.logUid]) he
    | otherError =>
      simp only [Recon.cleanupGo, hc] at he
      exact step _ [Recon.LogEvent.unhandled u] (by simp [Recon.logUid]) he

/-- Claim C7: the record of a probed user is deleted exactly when the authority
grants neither the customer nor the administrator role, or reports the user
unknown (404); any other per-user error leaves the record in place and is
logged. -/
theorem C7_reconciliation_delete_iff (auth : Nat → Recon.RoleResponse)
    (store : List Recon.Record) (uid : Nat) (huid : uid ∈ List.range' 1 99)
    (r : Recon.Record) (hkey : r.user_id = natToDigits uid) (hmem : r ∈ store) :
    (r ∈ (Recon.lambda_handler auth store).1 ↔ Recon.deleteSignal (auth uid) = false) ∧
    (∀ code, auth uid = .httpError code → code ≠ 404 →
      Recon.LogEvent.httpFail uid code ∈ (Recon.lambda_handler auth store).2) ∧
    (auth uid = .otherError →
      Recon.LogEvent.unhandled uid ∈ (Recon.lambda_handler auth store).2) := by
  refine ⟨?_, ?_, ?_⟩
  · rw [Recon.lambda_handler, cleanupGo_mem]
    constructor
    · intro ⟨_, hall⟩
      cases hsig : Recon.deleteSignal (auth uid) with
      | false => rfl
      | true => exact absurd hkey (hall uid huid hsig)
    · intro hsig
      refine ⟨hmem, fun i hi hsigi => ?_⟩
      by_cases hieq : i = uid
      · subst hieq
        rw [hsig] at hsigi
        cases hsigi
      · rw [hkey]
        intro he
        exact hieq (natToDigits_inj he).symm
  · intro code hau _
    exact cleanupGo_log_httpFail auth _ store [] uid code huid hau
  · intro hau
    exact cleanupGo_log_unhandled auth _ store [] uid huid hau

/-- Witness for C7: with an authority that 404s user 5, 500s user 6, throws
for user 7 and calls everyone else a customer, the record of user 5 is
deleted while users 6 and 7 keep theirs, and both errors are logged. -/
theorem C7_reconciliation_delete_iff_witness :
    (⟨"5".toList, []⟩ : Recon.Record) ∉
      (Recon.lambda_handler
        (fun n => if n == 5 then .httpError 404 else if n == 6 then .httpError 500
          else if n == 7 then .otherError else .ok [Recon.customerRole])
        [⟨"5".toList, []⟩, ⟨"6".toList, []⟩, ⟨"7".toList, []⟩]).1 ∧
    (⟨"6".toList, []⟩ : Recon.Record) ∈
      (Recon.lambda_handler
        (fun n => if n == 5 then .httpError 404 else if n == 6 then .httpError 500
          else if n == 7 then .otherError else .ok [Recon.customerRole])
        [⟨"5".toList, []⟩, ⟨"6".toList, []⟩, ⟨"7".toList, []⟩]).1 ∧
    Recon.LogEvent.httpFail 6 500 ∈
      (Recon.lambda_handler
        (fun n => if n == 5 then .httpError 404 else if n == 6 then .httpError 500
          else if n == 7 then .otherError else .ok [Recon.customerRole])
        [⟨"5".toList, []⟩, ⟨"6".toList, []⟩, ⟨"7".toList, []⟩]).2 ∧
    Recon.LogEvent.unhandled 7 ∈
      (Recon.lambda_handler
        (fun n => if n == 5 then .httpError 404 else if n == 6 then .httpError 500
          else if n == 7 then .otherError else .ok [Recon.customerRole])
        [⟨"5".toList, []⟩, ⟨"6".toList, []⟩, ⟨"7".toList, []⟩]).2 := by
  refine ⟨?_, ?_, ?_, ?_⟩
  · intro hm
    exact absurd ((C7_reconciliation_delete_iff _ _ 5 (by decide) _ (by decide)
      (by decide)).1.mp hm) (by decide)
  · exact (C7_reconciliation_delete_iff _ _ 6 (by decide) ⟨"6".toList, []⟩ (by decide)
      (by decide)).1.mpr (by decide)
  · exact (C7_reconciliation_delete_iff _ _ 6 (by decide) ⟨"6".toList, []⟩ (by decide)
      (by decide)).2.1 500 (by decide) (by decide)
  · exact (C7_reconciliation_delete_iff _ _ 7 (by decide) ⟨"7".toList, []⟩ (by decide)
      (by decide)).2.2 (by decide)

/-- Claim C10: the sweeper probes only the user ids 1..99, and a preference
record whose key is not the decimal string of one of them is never deleted,
whatever the authority answers. -/
theorem C10_recon_only_deletes_known_range (auth : Nat → Recon.RoleResponse)
    (store : List Recon.Record) (r : Recon.Record) (hmem : r ∈ store)
    (hout : ∀ i ∈ List.range' 1 99, r.user_id ≠ natToDigits i) :
    r ∈ (Recon.lambda_handler auth store).1 ∧
    ∀ e ∈ (Recon.lambda_handler auth store).2, Recon.logUid e ∈ List.range' 1 99 := by
  constructor
  · rw [Recon.lambda_handler, cleanupGo_mem]
    exact ⟨hmem, fun i hi _ => hout i hi⟩
  · intro e he
    rcases cleanupGo_log_uids auth _ store [] e he with h1 | h2
    · cases h1
    · exact h2

/-- Witness for C10: a record keyed `abc` survives even an authority that
reports every user unknown. -/
theorem C10_recon_only_deletes_known_range_witness :
    (⟨"abc".toList, []⟩ : Recon.Record) ∈
      (Recon.lambda_handler (fun _ => .httpError 404) [⟨"abc".toList, []⟩]).1 :=
  (C10_recon_only_deletes_known_range (fun _ => .httpError 404) [⟨"abc".toList, []⟩]
    ⟨"abc".toList, []⟩ (by decide) (by decide)).1

/-! ### The Rule Lifecycle Manager (`evenbridge_based_on_user_preferences.py`)

The EventBridge rule set is a list of rules; `put_rule` upserts a rule by
name keeping its targets, `put_targets` upserts a target by id. The random
four-digit suffixes are drawn from a supply `rand` indexed by the number of
rules created so far. -/

namespace EB

/-- An EventBridge target: its id, the function it invokes and the user id
carried in its input payload. -/
structure Target where
  id : PyStr
  arn : PyStr
  input : PyStr
deriving DecidableEq

/-- An EventBridge rule with its schedule expression and targets. -/
structure Rule where
  name : PyStr
  cron : PyStr
  targets : List Target
deriving DecidableEq

def lambdaArn : PyStr :=
  "arn:aws:lambda:eu-north-1:462197742027:function:EU_Czech_Tender_Search".toList

def gregi : PyStr := "gregi".toList

/-- A rule is protected when its lowercased name has the reserved marker. -/
def isProtectedName (name : PyStr) : Bool := strContains (pyLower name) gregi

/-- `clear_all_rules`: remove the targets of every unprotected rule and
delete it; protected rules are skipped. -/
def clear_all_rules (rules : List Rule) : List Rule :=
  rules.filter (fun r => isProtectedName r.name)

/-- EventBridge `put_rule`: update the schedule of the rule of that name,
keeping its targets, or create the rule when the name is free. -/
def put_rule (rules : List Rule) (name cron : PyStr) : List Rule :=
  if rules.any (fun r => r.name == name) then
    rules.map (fun r => if r.name == name then { r with cron := cron } else r)
  else rules ++ [⟨name, cron, []⟩]

/-- EventBridge target upsert by target id. -/
def upsertTarget (ts : List Target) (t : Target) : List Target :=
  if ts.any (fun x => x.id == t.id) then
    ts.map (fun x => if x.id == t.id then t else x)
  else ts ++ [t]

/-- EventBridge `put_targets` on the rule of the given name. -/
def put_targets (rules : List Rule) (name : PyStr) (t : Target) : List Rule :=
  rules.map (fun r =>
    if r.name == name then { r with targets := upsertTarget r.targets t } else r)

/-- The generated rule name `rule_for_user_<uid>_<rnd>`. -/
def mkRuleName (uid : PyStr) (n : Nat) : PyStr :=
  "rule_for_user_".toList ++ uid ++ '_' :: natToDigits n

/-- The target `create_eventbridge_rule` attaches: id `target_<uid>`, the
Search Worker as its function, the user id as its input. -/
def mkTarget (uid : PyStr) : Target :=
  ⟨"target_".toList ++ uid, lambdaArn, uid⟩

/-- `create_eventbridge_rule` with the drawn random number `rnd`. -/
def create_eventbridge_rule (rules : List Rule) (uid : PyStr) (cron : PyStr) (rnd : Nat) :
    List Rule :=
  put_targets (put_rule rules (mkRuleName uid rnd) cron) (mkRuleName uid rnd) (mkTarget uid)

def kazdyDen : PyStr := "Každý den".toList

/-- `day_to_cron`, with its catch-all daily default for unmatched names. -/
def day_to_cron (day_name : PyStr) : PyStr :=
  if day_name = "Pondělí".toList then "cron(00 10 ? * 2 *)".toList
  else if day_name = "Úterý".toList then "cron(00 10 ? * 3 *)".toList
  else if day_name = "Středa".toList then "cron(00 10 ? * 4 *)".toList
  else if day_name = "Čtvrtek".toList then "cron(00 10 ? * 5 *)".toList
  else if day_name = "Pátek".toList then "cron(00 10 ? * 6 *)".toList
  else if day_name = "Sobota".toList then "cron(00 10 ? * 7 *)".toList
  else if day_name = "Neděle".toList then "cron(00 10 ? * 1 *)".toList
  else "cron(00 10 ? * * *)".toList

/-- The cron expression `process_day_with_time` chooses for one entry. -/
def cronForEntry (dwt : PyStr) : PyStr :=
  if strContains dwt kazdyDen then "cron(00 10 * * ? *)".toList
  else day_to_cron ((pySplit " v ".toList dwt).headD [])

/-- The entry loop of `process_user_preferences`, threading the rule set and
the count of rules created so far (which indexes the random supply). -/
def processEntries (rand : Nat → Nat) (uid : PyStr) :
    List PyStr → List Rule × Nat → List Rule × Nat
  | [], st => st
  | dwt :: rest, (rules, k) =>
    processEntries rand uid rest
      (create_eventbridge_rule rules uid (cronForEntry dwt) (rand k), k + 1)

/-- `process_user_preferences`: split the frequency on `", "` and create one
rule per entry. -/
def process_user_preferences (rand : Nat → Nat) (uid frek : PyStr)
    (st : List Rule × Nat) : List Rule × Nat :=
  processEntries rand uid (pySplit ", ".toList frek) st

/-- The `preferences` map of a scanned item: `none` for a missing key. -/
structure Prefs where
  frekvence_zasilani : Option PyStr
deriving DecidableEq

/-- One scanned item: `preferences = none` models a missing or empty (falsy)
preferences attribute. -/
structure EBItem where
  user_id : PyStr
  preferences : Option Prefs
deriving DecidableEq

/-- The guarded processing of one scanned item: skipped unless it has a
truthy `user_id`, a truthy `preferences` map and a truthy frequency value. -/
def stepItem (rand : Nat → Nat) (it : EBItem) (st : List Rule × Nat) : List Rule × Nat :=
  if it.user_id = [] then st
  else
    match it.preferences with
    | none => st
    | some p =>
      match p.frekvence_zasilani with
      | none => st
      | some f => if f = [] then st else process_user_preferences rand it.user_id f st

def processItems (rand : Nat → Nat) : List EBItem → List Rule × Nat → List Rule × Nat
  | [], st => st
  | it :: rest, st => processItems rand rest (stepItem rand it st)

/-- Embedding of the rebuild `lambda_handler`: clear the unprotected rules,
then recreate rules from the scanned items. -/
def lambda_handler (rand : Nat → Nat) (items : List EBItem) (rules0 : List Rule) :
    List Rule :=
  (processItems rand items (clear_all_rules rules0, 0)).1

end EB

/-! ### Rebuild invariants -/

theorem mem_put_rule_of_ne {rules : List EB.Rule} {r : EB.Rule} {name cron : PyStr}
    (hr : r ∈ rules) (hne : r.name ≠ name) : r ∈ EB.put_rule rules name cron := by
  unfold EB.put_rule
  split
  · exact List.mem_map.mpr ⟨r, hr, by simp [hne]⟩
  · exact List.mem_append_left _ hr

theorem mem_put_targets_of_ne {rules : List EB.Rule} {r : EB.Rule} {name : PyStr}
    {t : EB.Target} (hr : r ∈ rules) (hne : r.name ≠ name) :
    r ∈ EB.put_targets rules name t := by
  unfold EB.put_targets
  exact List.mem_map.mpr ⟨r, hr, by simp [hne]⟩

theorem mem_create_of_ne {rules : List EB.Rule} {r : EB.Rule} {uid cron : PyStr} {rnd : Nat}
    (hr : r ∈ rules) (hne : r.name ≠ EB.mkRuleName uid rnd) :
    r ∈ EB.create_eventbridge_rule rules uid cron rnd :=
  mem_put_targets_of_ne (mem_put_rule_of_ne hr hne) hne

theorem mem_processEntries_of_fresh (rand : Nat → Nat) (uid : PyStr) {r : EB.Rule}
    (hfr : ∀ uid2 n, r.name ≠ EB.mkRuleName uid2 n) :
    ∀ (entries : List PyStr) (st : List EB.Rule × Nat), r ∈ st.1 →
    r ∈ (EB.processEntries rand uid entries st).1 := by
  intro entries
  induction entries with
  | nil => intro st h; exact h
  | cons dwt rest ih =>
    intro st h
    obtain ⟨rules, k⟩ := st
    exact ih _ (mem_create_of_ne h (hfr uid (rand k)))

theorem mem_stepItem_of_fresh (rand : Nat → Nat) (it : EB.EBItem) {r : EB.Rule}
    (hfr : ∀ uid2 n, r.name ≠ EB.mkRuleName uid2 n) (st : List EB.Rule × Nat)
    (h : r ∈ st.1) : r ∈ (EB.stepItem rand it st).1 := by
  unfold EB.stepItem
  split
  · exact h
  · split
    · exact h
    · split
      · exact h
      · split
        · exact h
        · exact mem_processEntries_of_fresh rand _ hfr _ _ h

theorem mem_processItems_of_fresh (rand : Nat → Nat) {r : EB.Rule}
    (hfr : ∀ uid2 n, r.name ≠ EB.mkRuleName uid2 n) :
    ∀ (items : List EB.EBItem) (st : List EB.Rule × Nat), r ∈ st.1 →
    r ∈ (EB.processItems rand items st).1 := by
  intro items
  induction items with
  | nil => intro st h; exact h
  | cons it rest ih =>
    intro st h
    exact ih _ (mem_stepItem_of_fresh rand it hfr st h)

theorem names_put_rule {rules : List EB.Rule} {name cron : PyStr} {r' : EB.Rule}
    (h : r' ∈ EB.put_rule rules name cron) :
    (∃ r ∈ rules, r'.name = r.name) ∨ r'.name = name := by
  unfold EB.put_rule at h
  split at h
  · obtain ⟨r, hr, himg⟩ := List.mem_map.mp h
    by_cases hbe : (r.name == name) = true
    · rw [if_pos hbe] at himg
      exact Or.inl ⟨r, hr, by rw [← himg]⟩
    · rw [if_neg hbe] at himg
      exact Or.inl ⟨r, hr, by rw [← himg]⟩
  · rcases List.mem_append.mp h with h1 | h2
    · exact Or.inl ⟨r', h1, rfl⟩
    · rw [List.mem_singleton] at h2
      exact Or.inr (by rw [h2])

theorem names_put_targets {rules : List EB.Rule} {name : PyStr} {t : EB.Target}
    {r' : EB.Rule} (h : r' ∈ EB.put_targets rules name t) :
    ∃ r ∈ rules, r'.name = r.name := by
  obtain ⟨r, hr, himg⟩ := List.mem_map.mp h
  refine ⟨r, hr, ?_⟩
  by_cases hbe : (r.name == name) = true
  · rw [if_pos hbe] at himg
    rw [← himg]
  · rw [if_neg hbe] at himg
    rw [← himg]

theorem names_create {rules : List EB.Rule} {uid cron : PyStr} {rnd : Nat} {r' : EB.Rule}
    (h : r' ∈ EB.create_eventbridge_rule rules uid cron rnd) :
    (∃ r ∈ rules, r'.name = r.name) ∨ r'.name = EB.mkRuleName uid rnd := by
  obtain ⟨r2, hr2, he2⟩ := names_put_targets h
  rcases names_put_rule hr2 with ⟨r3, hr3, he3⟩ | he3
  · exact Or.inl ⟨r3, hr3, by rw [he2, he3]⟩
  · exact Or.inr (by rw [he2, he3])

theorem names_processEntries (rand : Nat → Nat) (uid : PyStr) :
    ∀ (entries : List PyStr) (st : List EB.Rule × Nat) (r' : EB.Rule),
    r' ∈ (EB.processEntries rand uid entries st).1 →
    (∃ r ∈ st.1, r'.name = r.name) ∨ ∃ n, r'.name = EB.mkRuleName uid n := by
  intro entries
  induction entries with
  | nil => intro st r' h; exact Or.inl ⟨r', h, rfl⟩
  | cons dwt rest ih =>
    intro st r' h
    obtain ⟨rules, k⟩ := st
    rcases ih _ r' h with ⟨r2, hr2, he2⟩ | he2
    · rcases names_create hr2 with ⟨r3, hr3, he3⟩ | he3
      · exact Or.inl ⟨r3, hr3, by rw [he2, he3]⟩
      · exact Or.inr ⟨rand k, by rw [he2, he3]⟩
    · exact Or.inr he2

theorem names_stepItem (rand : Nat → Nat) (it : EB.EBItem) (st : List EB.Rule × Nat)
    (r' : EB.Rule) (h : r' ∈ (EB.stepItem rand it st).1) :
    (∃ r ∈ st.1, r'.name = r.name) ∨ ∃ uid n, r'.name = EB.mkRuleName uid n := by
  revert h
  unfold EB.stepItem
  split
  · exact fun h => Or.inl ⟨r', h, rfl⟩
  · split
    · exact fun h => Or.inl ⟨r', h, rfl⟩
    · split
      · exact fun h => Or.inl ⟨r', h, rfl⟩
      · split
        · exact fun h => Or.inl ⟨r', h, rfl⟩
        · intro h
          rcases names_processEntries rand it.user_id _ _ r' h with h1 | ⟨n, hn⟩
          · exact Or.inl h1
          · exact Or.inr ⟨it.user_id, n, hn⟩

theorem names_processItems (rand : Nat → Nat) :
    ∀ (items : List EB.EBItem) (st : List EB.Rule × Nat) (r' : EB.Rule),
    r' ∈ (EB.processItems rand items st).1 →
    (∃ r ∈ st.1, r'.name = r.name) ∨ ∃ uid n, r'.name = EB.mkRuleName uid n := by
  intro items
  induction items with
  | nil => intro st r' h; exact Or.inl ⟨r', h, rfl⟩
  | cons it rest ih =>
    intro st r' h
    rcases ih _ r' h with ⟨r2, hr2, he2⟩ | h2
    · rcases names_stepItem rand it st r2 hr2 with ⟨r3, hr3, he3⟩ | ⟨uid, n, hn⟩
      · exact Or.inl ⟨r3, hr3, by rw [he2, he3]⟩
      · exact Or.inr ⟨uid, n, by rw [he2, hn]⟩
    · exact Or.inr h2

/-- Some rule carries the canonical Search Worker target for this user. -/
def EB.hasWorkerTarget (uid : PyStr) (rules : List EB.Rule) : Prop :=
  ∃ r ∈ rules, EB.mkTarget uid ∈ r.targets

theorem target_id_inj {uid uid2 : PyStr} (h : (EB.mkTarget uid).id = (EB.mkTarget uid2).id) :
    uid = uid2 :=
  List.append_cancel_left h

theorem mem_upsertTarget_self (ts : List EB.Target) (t : EB.Target) :
    t ∈ EB.upsertTarget ts t := by
  unfold EB.upsertTarget
  split
  · rename_i hany
    obtain ⟨x, hx, hbe⟩ := List.any_eq_true.mp hany
    exact List.mem_map.mpr ⟨x, hx, by rw [if_pos hbe]⟩
  · exact List.mem_append_right _ (List.mem_singleton_self _)

theorem mem_upsertTarget_keep {ts : List EB.Target} {uid uid2 : PyStr}
    (h : EB.mkTarget uid ∈ ts) :
    EB.mkTarget uid ∈ EB.upsertTarget ts (EB.mkTarget uid2) := by
  by_cases he : uid = uid2
  · subst he
    exact mem_upsertTarget_self ts _
  · unfold EB.upsertTarget
    split
    · refine List.mem_map.mpr ⟨EB.mkTarget uid, h, ?_⟩
      rw [if_neg (fun hbe => he (target_id_inj (by exact eq_of_beq hbe)))]
    · exact List.mem_append_left _ h

theorem hasTarget_put_rule {uid : PyStr} {rules : List EB.Rule} {name cron : PyStr}
    (h : EB.hasWorkerTarget uid rules) :
    EB.hasWorkerTarget uid (EB.put_rule rules name cron) := by
  obtain ⟨r, hr, ht⟩ := h
  unfold EB.put_rule
  split
  · by_cases hbe : (r.name == name) = true
    · exact ⟨{ r with cron := cron }, List.mem_map.mpr ⟨r, hr, by rw [if_pos hbe]⟩, ht⟩
    · exact ⟨r, List.mem_map.mpr ⟨r, hr, by rw [if_neg hbe]⟩, ht⟩
  · exact ⟨r, List.mem_append_left _ hr, ht⟩

theorem hasTarget_put_targets {uid uid2 : PyStr} {rules : List EB.Rule} {name : PyStr}
    (h : EB.hasWorkerTarget uid rules) :
    EB.hasWorkerTarget uid (EB.put_targets rules name (EB.mkTarget uid2)) := by
  obtain ⟨r, hr, ht⟩ := h
  unfold EB.put_targets
  by_cases hbe : (r.name == name) = true
  · exact ⟨{ r with targets := EB.upsertTarget r.targets (EB.mkTarget uid2) },
      List.mem_map.mpr ⟨r, hr, by rw [if_pos hbe]⟩, mem_upsertTarget_keep ht⟩
  · exact ⟨r, List.mem_map.mpr ⟨r, hr, by rw [if_neg hbe]⟩, ht⟩

theorem hasTarget_create {uid uid2 cron : PyStr} {rules : List EB.Rule} {rnd : Nat}
    (h : EB.hasWorkerTarget uid rules) :
    EB.hasWorkerTarget uid (EB.create_eventbridge_rule rules uid2 cron rnd) :=
  hasTarget_put_targets (hasTarget_put_rule h)

theorem exists_name_put_rule (rules : List EB.Rule) (name cron : PyStr) :
    ∃ r ∈ EB.put_rule rules name cron, r.name = name := by
  unfold EB.put_rule
  split
  · rename_i hany
    obtain ⟨x, hx, hbe⟩ := List.any_eq_true.mp hany
    exact ⟨{ x with cron := cron }, List.mem_map.mpr ⟨x, hx, by rw [if_pos hbe]⟩,
      eq_of_beq hbe⟩
  · exact ⟨⟨name, cron, []⟩, List.mem_append_right _ (List.mem_singleton_self _), rfl⟩

theorem hasTarget_create_self (rules : List EB.Rule) (uid cron : PyStr) (rnd : Nat) :
    EB.hasWorkerTarget uid (EB.create_eventbridge_rule rules uid cron rnd) := by
  obtain ⟨r, hr, hname⟩ := exists_name_put_rule rules (EB.mkRuleName uid rnd) cron
  unfold EB.create_eventbridge_rule EB.put_targets
  exact ⟨{ r with targets := EB.upsertTarget r.targets (EB.mkTarget uid) },
    List.mem_map.mpr ⟨r, hr, by rw [if_pos (beq_iff_eq.mpr hname)]⟩,
    mem_upsertTarget_self _ _⟩

theorem hasTarget_processEntries_pres (rand : Nat → Nat) (uid uid2 : PyStr) :
    ∀ (entries : List PyStr) (st : List EB.Rule × Nat), EB.hasWorkerTarget uid st.1 →
    EB.hasWorkerTarget uid (EB.processEntries rand uid2 entries st).1 := by
  intro entries
  induction entries with
  | nil => intro st h; exact h
  | cons dwt rest ih =>
    intro st h
    obtain ⟨rules, k⟩ := st
    exact ih _ (hasTarget_create h)

theorem hasTarget_processEntries_est (rand : Nat → Nat) (uid : PyStr)
    (entries : List PyStr) (hne : entries ≠ []) (st : List EB.Rule × Nat) :
    EB.hasWorkerTarget uid (EB.processEntries rand uid entries st).1 := by
  cases entries with
  | nil => exact absurd rfl hne
  | cons dwt rest =>
    obtain ⟨rules, k⟩ := st
    exact hasTarget_processEntries_pres rand uid uid rest _
      (hasTarget_create_self rules uid (EB.cronForEntry dwt) (rand k))

theorem hasTarget_stepItem_pres (rand : Nat → Nat) (it : EB.EBItem) {uid : PyStr}
    (st : List EB.Rule × Nat) (h : EB.hasWorkerTarget uid st.1) :
    EB.hasWorkerTarget uid (EB.stepItem rand it st).1 := by
  unfold EB.stepItem
  split
  · exact h
  · split
    · exact h
    · split
      · exact h
      · split
        · exact h
        · exact hasTarget_processEntries_pres rand uid it.user_id _ _ h

theorem hasTarget_processItems_pres (rand : Nat → Nat) {uid : PyStr} :
    ∀ (items : List EB.EBItem) (st : List EB.Rule × Nat), EB.hasWorkerTarget uid st.1 →
    EB.hasWorkerTarget uid (EB.processItems rand items st).1 := by
  intro items
  induction items with
  | nil => intro st h; exact h
  | cons it rest ih =>
    intro st h
    exact ih _ (hasTarget_stepItem_pres rand it st h)

theorem pySplit_ne_nil (sep s : PyStr) : pySplit sep s ≠ [] := by
  show pySplitAux sep (s.length + 1) s ≠ []
  rw [pySplitAux_succ]
  cases hfs : findSplit sep s with
  | none => simp
  | some pp =>
    obtain ⟨a, b⟩ := pp
    simp

theorem processItems_append (rand : Nat → Nat) :
    ∀ (l1 l2 : List EB.EBItem) (st : List EB.Rule × Nat),
    EB.processItems rand (l1 ++ l2) st = EB.processItems rand l2 (EB.processItems rand l1 st) := by
  intro l1
  induction l1 with
  | nil => intro l2 st; rfl
  | cons it rest ih =>
    intro l2 st
    show EB.processItems rand (rest ++ l2) (EB.stepItem rand it st) = _
    rw [ih]
    rfl

theorem stepItem_guards (rand : Nat → Nat) (it : EB.EBItem) (st : List EB.Rule × Nat)
    {p : EB.Prefs} {f : PyStr} (hu : ¬ it.user_id = []) (hp : it.preferences = some p)
    (hf : p.frekvence_zasilani = some f) (hf0 : ¬ f = []) :
    EB.stepItem rand it st = EB.process_user_preferences rand it.user_id f st := by
  unfold EB.stepItem
  rw [if_neg hu, hp]
  dsimp only
  rw [hf]
  dsimp only
  rw [if_neg hf0]

/-- Counterexample for C2: a protected rule named `rule_for_user_gregi_1234`
is not untouched by a rebuild in which user `gregi` draws the random suffix
1234: the generated rule name collides with it, so `put_rule` overwrites its
schedule and `put_targets` attaches a target to it. -/
theorem C2_rebuild_counterexample :
    EB.isProtectedName "rule_for_user_gregi_1234".toList = true ∧
    (⟨"rule_for_user_gregi_1234".toList, "keep".toList, []⟩ : EB.Rule) ∈
      [(⟨"rule_for_user_gregi_1234".toList, "keep".toList, []⟩ : EB.Rule)] ∧
    (⟨"rule_for_user_gregi_1234".toList, "keep".toList, []⟩ : EB.Rule) ∉
      EB.lambda_handler (fun _ => 1234)
        [⟨"gregi".toList, some ⟨some "x".toList⟩⟩]
        [⟨"rule_for_user_gregi_1234".toList, "keep".toList, []⟩] := by decide

/-- Claim C2 as amended: provided no pre-existing rule bears a name of the
generated shape `rule_for_user_<uid>_<number>`, a completed rebuild leaves no
rule carrying the name of any unprotected pre-existing rule, keeps every
protected pre-existing rule untouched (same name, schedule and targets), and
gives every scanned item with a truthy user id and a truthy frequency at
least one rule with a target invoking the Search Worker with that user id. -/
theorem C2_rebuild_amended (rand : Nat → Nat) (items : List EB.EBItem)
    (rules0 : List EB.Rule)
    (hfresh : ∀ r0 ∈ rules0, ∀ uid n, r0.name ≠ EB.mkRuleName uid n) :
    (∀ r0 ∈ rules0, EB.isProtectedName r0.name = false →
      ∀ r ∈ EB.lambda_handler rand items rules0, r.name ≠ r0.name) ∧
    (∀ r0 ∈ rules0, EB.isProtectedName r0.name = true →
      r0 ∈ EB.lambda_handler rand items rules0) ∧
    (∀ it ∈ items, it.user_id ≠ [] → ∀ p, it.preferences = some p →
      ∀ f, p.frekvence_zasilani = some f → f ≠ [] →
      ∃ r ∈ EB.lambda_handler rand items rules0, ∃ tg ∈ r.targets,
        tg.arn = EB.lambdaArn ∧ tg.input = it.user_id) := by
  refine ⟨?_, ?_, ?_⟩
  · intro r0 h0 hunprot r hr heq
    rcases names_processItems rand items _ r hr with ⟨rc, hrc, hnc⟩ | ⟨uid, n, hn⟩
    · obtain ⟨hrc0, hprot⟩ := List.mem_filter.mp hrc
      rw [heq] at hnc
      rw [hnc] at hunprot
      rw [hunprot] at hprot
      cases hprot
    · rw [heq] at hn
      exact hfresh r0 h0 uid n hn
  · intro r0 h0 hprot
    exact mem_processItems_of_fresh rand (hfresh r0 h0) items _
      (List.mem_filter.mpr ⟨h0, hprot⟩)
  · intro it hit hu p hp f hf hf0
    obtain ⟨l1, l2, rfl⟩ := List.append_of_mem hit
    have hht : EB.hasWorkerTarget it.user_id
        (EB.processItems rand (l1 ++ it :: l2) (EB.clear_all_rules rules0, 0)).1 := by
      rw [processItems_append]
      show EB.hasWorkerTarget it.user_id
        (EB.processItems rand l2 (EB.stepItem rand it _)).1
      apply hasTarget_processItems_pres
      rw [stepItem_guards rand it _ hu hp hf hf0]
      exact hasTarget_processEntries_est rand it.user_id _ (pySplit_ne_nil _ _) _
    obtain ⟨r, hrm, htg⟩ := hht
    exact ⟨r, hrm, EB.mkTarget it.user_id, htg, rfl, rfl⟩

/-- Witness for C2 as amended: a rebuild over one scanned user keeps the
protected rule `gregi-keep` and creates a rule whose target invokes the
Search Worker with that user id. -/
theorem C2_rebuild_amended_witness :
    (⟨"gregi-keep".toList, "c".toList, []⟩ : EB.Rule) ∈
      EB.lambda_handler (fun _ => 1000)
        [⟨"7".toList, some ⟨some "Pondělí v 09:00".toList⟩⟩]
        [⟨"gregi-keep".toList, "c".toList, []⟩] ∧
    (∃ r ∈ EB.lambda_handler (fun _ => 1000)
        [⟨"7".toList, some ⟨some "Pondělí v 09:00".toList⟩⟩]
        [⟨"gregi-keep".toList, "c".toList, []⟩],
      ∃ tg ∈ r.targets, tg.arn = EB.lambdaArn ∧ tg.input = "7".toList) := by
  have hfresh : ∀ r0 ∈ [(⟨"gregi-keep".toList, "c".toList, []⟩ : EB.Rule)],
      ∀ uid n, r0.name ≠ EB.mkRuleName uid n := by
    intro r0 hr0 uid n heq
    rw [List.mem_singleton] at hr0
    subst hr0
    have hshape : EB.mkRuleName uid n =
        'r' :: ("ule_for_user_".toList ++ uid ++ '_' :: natToDigits n) := rfl
    rw [hshape] at heq
    simp at heq
  have h := C2_rebuild_amended (fun _ => 1000)
    [⟨"7".toList, some ⟨some "Pondělí v 09:00".toList⟩⟩]
    [⟨"gregi-keep".toList, "c".toList, []⟩] hfresh
  exact ⟨h.2.1 ⟨"gregi-keep".toList, "c".toList, []⟩ (by decide) (by decide),
    h.2.2 ⟨"7".toList, some ⟨some "Pondělí v 09:00".toList⟩⟩ (by decide) (by decide)
      ⟨some "Pondělí v 09:00".toList⟩ rfl "Pondělí v 09:00".toList rfl (by decide)⟩

example : Sched.is_scheduled_time ⟨2, 12, 7⟩ "Středa v 12:00".toList = some true := by decide
example : Sched.is_scheduled_time ⟨3, 12, 0⟩ "Středa v 12:00".toList = some false := by decide
example : Sched.is_scheduled_time ⟨3, 12, 0⟩ "Jednou denně".toList = some true := by decide
example : Sched.is_scheduled_time ⟨3, 11, 0⟩ "Jednou denně".toList = some false := by decide
example : Sched.is_scheduled_time ⟨3, 11, 0⟩ "Foo v 10:00".toList = some false := by decide
example : Sched.is_scheduled_time ⟨3, 11, 0⟩ "Foo v x:00".toList = none := by decide
example : Sched.is_scheduled_time ⟨3, 11, 0⟩ "".toList = some false := by decide
example : pySplit " v ".toList "Pondělí v 12:00, Středa v 14:00".toList =
    ["Pondělí".toList, "12:00, Středa".toList, "14:00".toList] := by decide
example : pyInt "12".toList = some 12 := by decide
example : pyInt "".toList = none := by decide
example : natToDigits 1234 = "1234".toList := by decide
